import Mathlib

/-!
Verification of the weighted lottery selector of this repository.

The algorithmic core lives in `src/utils/lottery.ts` (`weightedRandomSelection`)
and is duplicated inline in `src/components/NameScrolling.tsx`.  We embed both
shallowly:

* JavaScript numbers are modelled as rationals (`ℚ`); the candidate weights are
  the `totalTickets` field of a `Guide`.
* The random source `Math.random()` is modelled as an explicit sequence
  `rs : ℕ → ℚ` of draws, one per round; round `i` uses `rs i` and the code
  multiplies it by the current total weight.
* The JavaScript expression `availableGuides.splice(selectedIndex, 1)[0]` can
  in principle produce `undefined` (when the index is out of range `splice`
  removes nothing and `[0]` is `undefined`), so a round's winner is modelled as
  an `Option Guide`; `none` is JavaScript's `undefined`.
* Array mutation is modelled twice: a pure state-passing version
  (`selectionLoop`), and a reference/heap version (`wrsHeap`) in which arrays
  live in a store `ℕ → List Guide`, used to state that the caller's input
  array is never mutated (the code copies it with `[...guides]`).
-/

/-- Candidates are `Guide` values (`src/types` is not part of the sources;
modelled from the spec: a Candidate has a unique identity, a non-negative
integer-valued `weight` stored in `totalTickets`, and opaque display
attributes irrelevant to selection, which we collapse into `id`). Only
`totalTickets` is read by the selection algorithm. -/
structure Guide where
  id : ℕ
  totalTickets : ℚ
deriving DecidableEq

/-- Embedding of `availableGuides.reduce((sum, guide) => sum + guide.totalTickets, 0)`
(line 8 of `lottery.ts`). -/
def totalWeight (gs : List Guide) : ℚ :=
  gs.foldl (fun s g => s + g.totalTickets) 0

/-- Embedding of the inner scan (lines 11-18 of `lottery.ts`): starting from the
draw `r`, subtract each candidate's weight in pool order; return `some j` for
the first index `j` at which the running value becomes `≤ 0`, and `none` when
the loop never breaks. -/
def findWinIdx (r : ℚ) : List Guide → Option ℕ
  | [] => none
  | g :: gs =>
    if r - g.totalTickets ≤ 0 then some 0
    else (findWinIdx (r - g.totalTickets) gs).map (· + 1)

/-- The `selectedIndex` variable after the scan: it is initialised to `0` and
only overwritten when the scan breaks, so a scan that never breaks leaves `0`. -/
def selectedIndex (r : ℚ) (gs : List Guide) : ℕ :=
  (findWinIdx r gs).getD 0

/-- Embedding of the outer `for` loop of `weightedRandomSelection`
(lines 7-22 of `lottery.ts`): `i` is the loop counter (used to index the
random sequence), the second argument the remaining iteration budget
(`count - i`), the third the current `availableGuides`.  Each round computes
the total weight, scales the round's raw draw `rs i` by it, scans for the
winning index, records `availableGuides[j]` (as an `Option`, mirroring
`splice(j, 1)[0]`) and removes index `j` from the pool. -/
def selectionLoop (rs : ℕ → ℚ) : ℕ → ℕ → List Guide → List (Option Guide)
  | _, 0, _ => []
  | _, _ + 1, [] => []
  | i, n + 1, g :: gs =>
    let j := selectedIndex (rs i * totalWeight (g :: gs)) (g :: gs)
    (g :: gs)[j]? :: selectionLoop rs (i + 1) n ((g :: gs).eraseIdx j)

/-- Embedding of `weightedRandomSelection(guides, count)` from
`src/utils/lottery.ts`, with the random source made explicit. -/
def weightedRandomSelection (rs : ℕ → ℚ) (guides : List Guide) (count : ℕ) :
    List (Option Guide) :=
  selectionLoop rs 0 count guides

/-! Transcription of the selection loop embedded inline in the `useEffect` of
`src/components/NameScrolling.tsx` (lines 44-63).  It is transcribed afresh
from that file, independently of the `lottery.ts` embedding above, so that the
equivalence of the two is a theorem rather than a definition. -/

/-- Embedding of `availableGuides.reduce((sum, guide) => sum + guide.totalTickets, 0)`
as written at line 49 of `NameScrolling.tsx`. -/
def nsTotalWeight (gs : List Guide) : ℚ :=
  gs.foldl (fun s g => s + g.totalTickets) 0

/-- Embedding of the inner scan of `NameScrolling.tsx` (lines 52-59). -/
def nsFindWinIdx (r : ℚ) : List Guide → Option ℕ
  | [] => none
  | g :: gs =>
    if r - g.totalTickets ≤ 0 then some 0
    else (nsFindWinIdx (r - g.totalTickets) gs).map (· + 1)

/-- The `selectedIndex` variable of `NameScrolling.tsx` after its scan. -/
def nsSelectedIndex (r : ℚ) (gs : List Guide) : ℕ :=
  (nsFindWinIdx r gs).getD 0

/-- Embedding of the outer `for` loop of `NameScrolling.tsx` (lines 48-63). -/
def nsSelectionLoop (rs : ℕ → ℚ) : ℕ → ℕ → List Guide → List (Option Guide)
  | _, 0, _ => []
  | _, _ + 1, [] => []
  | i, n + 1, g :: gs =>
    let j := nsSelectedIndex (rs i * nsTotalWeight (g :: gs)) (g :: gs)
    (g :: gs)[j]? :: nsSelectionLoop rs (i + 1) n ((g :: gs).eraseIdx j)

/-- The winner pre-calculation of `NameScrolling.tsx` (lines 45-63): start from
`winners = []`, `availableGuides = [...guides]`, run the loop `winnerCount`
times or until the pool empties. -/
def nsSelectWinners (rs : ℕ → ℚ) (guides : List Guide) (winnerCount : ℕ) :
    List (Option Guide) :=
  nsSelectionLoop rs 0 winnerCount guides

/-- Cumulative weight of the first `i` candidates of the pool, the boundary
`p_i` of the partition of `[0, totalWeight)` described in the spec. -/
def cumWeight (gs : List Guide) (i : ℕ) : ℚ :=
  totalWeight (gs.take i)

/-- Specification-side partition formulation (modelled from the spec's words:
"partition `[0, totalWeight)` into contiguous sub-intervals sized by each
candidate's weight, in pool order, and locate which sub-interval contains
`r`"): `r` lies in the `i`-th sub-interval `[p_i, p_{i+1})`. -/
def inSlot (gs : List Guide) (i : ℕ) (r : ℚ) : Prop :=
  cumWeight gs i ≤ r ∧ r < cumWeight gs (i + 1)

instance (gs : List Guide) (i : ℕ) (r : ℚ) : Decidable (inSlot gs i r) :=
  inferInstanceAs (Decidable (cumWeight gs i ≤ r ∧ r < cumWeight gs (i + 1)))

/-! Heap model.  JavaScript arrays are reference values; to state that the
caller's array is not mutated we give the loop a store of arrays indexed by
references (`ℕ → List Guide`).  `weightedRandomSelection` receives the
reference `inRef` of the caller's array, allocates a fresh reference
`availRef` for the copy `[...guides]`, and all writes (`splice`) hit
`availRef` only. -/

/-- One run of the `for` loop of `lottery.ts`, acting on the store: each round
reads the pool at `availRef`, and writes the spliced pool back to `availRef`.
Returns the final store and the winner list. -/
def wrsHeapLoop (rs : ℕ → ℚ) (availRef : ℕ) :
    ℕ → ℕ → (ℕ → List Guide) → (ℕ → List Guide) × List (Option Guide)
  | _, 0, h => (h, [])
  | i, n + 1, h =>
    match h availRef with
    | [] => (h, [])
    | g :: gs =>
      let j := selectedIndex (rs i * totalWeight (g :: gs)) (g :: gs)
      let h2 := Function.update h availRef ((g :: gs).eraseIdx j)
      let rest := wrsHeapLoop rs availRef (i + 1) n h2
      (rest.1, (g :: gs)[j]? :: rest.2)

/-- Heap-model embedding of `weightedRandomSelection`: the caller's array lives
at `inRef` in the store `h`; `availRef` is the fresh reference returned by the
allocation `[...guides]` (freshness is the hypothesis `inRef ≠ availRef` at
the use sites).  The copy initialises `availRef` with the list at `inRef`,
then the loop runs on `availRef`. -/
def wrsHeap (rs : ℕ → ℚ) (h : ℕ → List Guide) (inRef availRef : ℕ)
    (count : ℕ) : (ℕ → List Guide) × List (Option Guide) :=
  wrsHeapLoop rs availRef 0 count (Function.update h availRef (h inRef))

/-! Basic lemmas about the embedding. -/

theorem totalWeight_nil : totalWeight [] = 0 := rfl

theorem foldl_add_shift (l : List Guide) :
    ∀ a : ℚ, l.foldl (fun s g => s + g.totalTickets) a = a + totalWeight l := by
  induction l with
  | nil => intro a; simp [totalWeight]
  | cons g gs ih =>
    intro a
    have h1 : (g :: gs).foldl (fun s x => s + x.totalTickets) a
        = gs.foldl (fun s x => s + x.totalTickets) (a + g.totalTickets) := rfl
    have h2 : totalWeight (g :: gs)
        = gs.foldl (fun s x => s + x.totalTickets) (0 + g.totalTickets) := rfl
    rw [h1, h2, ih, ih]
    ring

theorem totalWeight_cons (g : Guide) (gs : List Guide) :
    totalWeight (g :: gs) = g.totalTickets + totalWeight gs := by
  simp only [totalWeight, List.foldl_cons, zero_add]
  exact foldl_add_shift gs g.totalTickets

theorem totalWeight_nonneg (gs : List Guide)
    (hw : ∀ g ∈ gs, 0 ≤ g.totalTickets) : 0 ≤ totalWeight gs := by
  induction gs with
  | nil => simp [totalWeight]
  | cons g gs ih =>
    rw [totalWeight_cons]
    have h1 := hw g (by simp)
    have h2 := ih (fun x hx => hw x (by simp [hx]))
    linarith

theorem findWinIdx_lt_length {r : ℚ} {gs : List Guide} {k : ℕ}
    (h : findWinIdx r gs = some k) : k < gs.length := by
  induction gs generalizing r k with
  | nil => simp [findWinIdx] at h
  | cons g gs ih =>
    rw [findWinIdx] at h
    by_cases hc : r - g.totalTickets ≤ 0
    · rw [if_pos hc] at h
      simp only [Option.some.injEq] at h
      subst h
      simp
    · rw [if_neg hc] at h
      cases hf : findWinIdx (r - g.totalTickets) gs with
      | none => rw [hf] at h; simp at h
      | some m =>
        rw [hf] at h
        simp at h
        have := ih hf
        simp only [List.length_cons]
        omega

theorem selectedIndex_lt_length {gs : List Guide} (hne : gs ≠ []) (r : ℚ) :
    selectedIndex r gs < gs.length := by
  rw [selectedIndex]
  cases hf : findWinIdx r gs with
  | none =>
    simp only [Option.getD_none]
    cases gs with
    | nil => exact absurd rfl hne
    | cons g gs => simp
  | some k =>
    simp only [Option.getD_some]
    exact findWinIdx_lt_length hf

theorem findWinIdx_none {r : ℚ} {gs : List Guide}
    (h : findWinIdx r gs = none) : totalWeight gs < r ∨ gs = [] := by
  induction gs generalizing r with
  | nil => exact Or.inr rfl
  | cons g gs ih =>
    rw [findWinIdx] at h
    by_cases hc : r - g.totalTickets ≤ 0
    · simp [hc] at h
    · simp [hc] at h
      left
      rw [totalWeight_cons]
      rcases ih h with h1 | h1
      · linarith
      · subst h1
        simp only [totalWeight_nil]
        linarith [not_le.mp hc]

theorem cumWeight_zero (gs : List Guide) : cumWeight gs 0 = 0 := rfl

theorem cumWeight_nil (k : ℕ) : cumWeight [] k = 0 := by
  simp [cumWeight, totalWeight]

theorem cumWeight_succ_cons (g : Guide) (gs : List Guide) (k : ℕ) :
    cumWeight (g :: gs) (k + 1) = g.totalTickets + cumWeight gs k := by
  simp only [cumWeight, List.take_succ_cons]
  exact totalWeight_cons g (gs.take k)

theorem cumWeight_nonneg (gs : List Guide) (k : ℕ)
    (hw : ∀ g ∈ gs, 0 ≤ g.totalTickets) : 0 ≤ cumWeight gs k :=
  totalWeight_nonneg _ (fun g hg => hw g (List.take_subset k gs hg))

theorem cumWeight_mono (gs : List Guide) {k m : ℕ}
    (hw : ∀ g ∈ gs, 0 ≤ g.totalTickets) (hkm : k ≤ m) :
    cumWeight gs k ≤ cumWeight gs m := by
  induction gs generalizing k m with
  | nil => simp [cumWeight_nil]
  | cons g gs ih =>
    cases k with
    | zero =>
      rw [cumWeight_zero]
      exact cumWeight_nonneg _ _ hw
    | succ k' =>
      cases m with
      | zero => omega
      | succ m' =>
        rw [cumWeight_succ_cons, cumWeight_succ_cons]
        have := ih (fun x hx => hw x (by simp [hx])) (Nat.le_of_succ_le_succ hkm)
        linarith

theorem cumWeight_ge_length (gs : List Guide) {k : ℕ} (hk : gs.length ≤ k) :
    cumWeight gs k = totalWeight gs := by
  rw [cumWeight, List.take_of_length_le hk]

/-- Soundness of the scan against the partition: when `r` lies strictly inside
the `i`-th sub-interval, the scan breaks exactly at index `i`. -/
theorem scan_of_slot :
    ∀ (gs : List Guide) (r : ℚ) (i : ℕ),
      (∀ g ∈ gs, 0 ≤ g.totalTickets) →
      cumWeight gs i < r → r < cumWeight gs (i + 1) →
      findWinIdx r gs = some i := by
  intro gs
  induction gs with
  | nil =>
    intro r i _ h1 h2
    rw [cumWeight_nil] at h1
    rw [cumWeight_nil] at h2
    exact absurd (h1.trans h2) (lt_irrefl 0)
  | cons g gs ih =>
    intro r i hw h1 h2
    cases i with
    | zero =>
      rw [cumWeight_succ_cons, cumWeight_zero, add_zero] at h2
      rw [findWinIdx, if_pos (by linarith)]
    | succ i' =>
      have hw0 : 0 ≤ g.totalTickets := hw g (by simp)
      have hmono : cumWeight (g :: gs) 1 ≤ cumWeight (g :: gs) (i' + 1) :=
        cumWeight_mono _ hw (by omega)
      rw [cumWeight_succ_cons, cumWeight_zero, add_zero] at hmono
      have hgt : ¬ (r - g.totalTickets ≤ 0) := by
        rw [not_le]
        have : g.totalTickets < r := lt_of_le_of_lt hmono h1
        linarith
      rw [findWinIdx, if_neg hgt]
      rw [cumWeight_succ_cons] at h1
      rw [cumWeight_succ_cons] at h2
      have hrec := ih (r - g.totalTickets) i'
        (fun x hx => hw x (by simp [hx])) (by linarith) (by linarith)
      rw [hrec]
      rfl

/-- Existence of a partition slot for every draw in `[0, totalWeight)`. -/
theorem slot_exists :
    ∀ (gs : List Guide) (r : ℚ),
      (∀ g ∈ gs, 0 ≤ g.totalTickets) → 0 ≤ r → r < totalWeight gs →
      ∃ i, inSlot gs i r := by
  intro gs
  induction gs with
  | nil =>
    intro r _ h0 h1
    rw [totalWeight_nil] at h1
    exact absurd (lt_of_le_of_lt h0 h1) (lt_irrefl 0)
  | cons g gs ih =>
    intro r hw h0 h1
    by_cases hc : r < g.totalTickets
    · refine ⟨0, ?_, ?_⟩
      · rw [cumWeight_zero]; exact h0
      · rw [cumWeight_succ_cons, cumWeight_zero, add_zero]; exact hc
    · push_neg at hc
      rw [totalWeight_cons] at h1
      obtain ⟨i, hi1, hi2⟩ := ih (r - g.totalTickets)
        (fun x hx => hw x (by simp [hx])) (by linarith) (by linarith)
      refine ⟨i + 1, ?_, ?_⟩
      · rw [cumWeight_succ_cons]; linarith
      · rw [cumWeight_succ_cons]; linarith

/-- Uniqueness of the partition slot. -/
theorem slot_unique (gs : List Guide) (r : ℚ) {i j : ℕ}
    (hw : ∀ g ∈ gs, 0 ≤ g.totalTickets)
    (hi : inSlot gs i r) (hj : inSlot gs j r) : i = j := by
  rcases lt_trichotomy i j with h | h | h
  · exact absurd (lt_of_lt_of_le hi.2 ((cumWeight_mono gs hw (by omega)).trans hj.1))
      (lt_irrefl r)
  · exact h
  · exact absurd (lt_of_lt_of_le hj.2 ((cumWeight_mono gs hw (by omega)).trans hi.1))
      (lt_irrefl r)

/-- A strictly positive draw below the total weight always lands on a
candidate of strictly positive weight. -/
theorem pos_weight_selected :
    ∀ (gs : List Guide) (r : ℚ), 0 < r → r < totalWeight gs →
      ∃ g, gs[selectedIndex r gs]? = some g ∧ 0 < g.totalTickets := by
  intro gs
  induction gs with
  | nil =>
    intro r h0 h1
    rw [totalWeight_nil] at h1
    exact absurd (h0.trans h1) (lt_irrefl 0)
  | cons g gs ih =>
    intro r h0 h1
    by_cases hc : r - g.totalTickets ≤ 0
    · refine ⟨g, ?_, by linarith⟩
      rw [selectedIndex, findWinIdx, if_pos hc]
      simp
    · rw [totalWeight_cons] at h1
      have h0' : 0 < r - g.totalTickets := by linarith [not_le.mp hc]
      have h1' : r - g.totalTickets < totalWeight gs := by linarith
      obtain ⟨x, hx, hxw⟩ := ih (r - g.totalTickets) h0' h1'
      refine ⟨x, ?_, hxw⟩
      have hidx : selectedIndex r (g :: gs) = selectedIndex (r - g.totalTickets) gs + 1 := by
        rw [selectedIndex, selectedIndex, findWinIdx, if_neg hc]
        cases hf : findWinIdx (r - g.totalTickets) gs with
        | none =>
          exfalso
          rcases findWinIdx_none hf with hgt | hnil
          · linarith
          · subst hnil
            rw [totalWeight_nil] at h1'
            linarith
        | some m => rfl
      rw [hidx]
      simpa using hx

/-- Removing the element at an in-range index and putting it back in front is
a permutation of the original pool. -/
theorem get_cons_eraseIdx_perm :
    ∀ (gs : List Guide) (j : ℕ) (hj : j < gs.length),
      (gs.get ⟨j, hj⟩ :: gs.eraseIdx j).Perm gs := by
  intro gs
  induction gs with
  | nil => intro j hj; simp at hj
  | cons g gs ih =>
    intro j hj
    cases j with
    | zero => simp [List.eraseIdx]
    | succ j' =>
      have hj' : j' < gs.length := by simpa using hj
      have step : ((g :: gs).get ⟨j' + 1, hj⟩ :: (g :: gs).eraseIdx (j' + 1))
          = gs.get ⟨j', hj'⟩ :: g :: gs.eraseIdx j' := by
        simp [List.eraseIdx]
      rw [step]
      exact (List.Perm.swap g (gs.get ⟨j', hj'⟩) (gs.eraseIdx j')).trans
        ((ih j' hj').cons g)

/-- One round's winner list entry together with one round's pool shrinkage:
the body of the loop returns a sub-permutation of the pool. -/
theorem selectionLoop_subperm (rs : ℕ → ℚ) :
    ∀ (n i : ℕ) (pool : List Guide),
      ∃ ws : List Guide,
        selectionLoop rs i n pool = ws.map some ∧ ws.Subperm pool := by
  intro n
  induction n with
  | zero => intro i pool; exact ⟨[], rfl, List.nil_subperm⟩
  | succ n ih =>
    intro i pool
    cases pool with
    | nil => exact ⟨[], rfl, List.nil_subperm⟩
    | cons g gs =>
      set j := selectedIndex (rs i * totalWeight (g :: gs)) (g :: gs) with hj
      have hjlt : j < (g :: gs).length :=
        selectedIndex_lt_length (by simp) _
      obtain ⟨ws, hws, hsub⟩ := ih (i + 1) ((g :: gs).eraseIdx j)
      refine ⟨(g :: gs).get ⟨j, hjlt⟩ :: ws, ?_, ?_⟩
      · rw [selectionLoop, ← hj, hws, List.map_cons]
        rw [List.getElem?_eq_getElem hjlt]
        rfl
      · obtain ⟨l, hperm, hsl⟩ := hsub
        have hstep : ((g :: gs).get ⟨j, hjlt⟩ :: ws).Subperm
            ((g :: gs).get ⟨j, hjlt⟩ :: (g :: gs).eraseIdx j) :=
          ⟨(g :: gs).get ⟨j, hjlt⟩ :: l, hperm.cons _, hsl.cons₂ _⟩
        exact List.Subperm.trans hstep
          (get_cons_eraseIdx_perm (g :: gs) j hjlt).subperm

/-- Length of the winner list produced by the loop. -/
theorem selectionLoop_length (rs : ℕ → ℚ) :
    ∀ (n i : ℕ) (pool : List Guide),
      (selectionLoop rs i n pool).length = min n pool.length := by
  intro n
  induction n with
  | zero => intro i pool; simp [selectionLoop]
  | succ n ih =>
    intro i pool
    cases pool with
    | nil => simp [selectionLoop]
    | cons g gs =>
      set j := selectedIndex (rs i * totalWeight (g :: gs)) (g :: gs) with hj
      have hjlt : j < (g :: gs).length :=
        selectedIndex_lt_length (by simp) _
      rw [selectionLoop, ← hj]
      have herase : ((g :: gs).eraseIdx j).length = gs.length := by
        rw [List.length_eraseIdx, if_pos hjlt]
        simp
      rw [List.length_cons, ih, herase]
      simp only [List.length_cons]
      omega

/-- The loop only consults the draws of the rounds it actually runs. -/
theorem selectionLoop_congr (rs1 rs2 : ℕ → ℚ) :
    ∀ (n i : ℕ) (pool : List Guide),
      (∀ k, i ≤ k → k < i + n → rs1 k = rs2 k) →
      selectionLoop rs1 i n pool = selectionLoop rs2 i n pool := by
  intro n
  induction n with
  | zero => intro i pool _; rfl
  | succ n ih =>
    intro i pool hagree
    cases pool with
    | nil => rfl
    | cons g gs =>
      rw [selectionLoop, selectionLoop]
      rw [hagree i (le_refl i) (by omega)]
      rw [ih (i + 1) _ (fun k hk1 hk2 => hagree k (by omega) (by omega))]

theorem nsTotalWeight_eq : nsTotalWeight = totalWeight := rfl

theorem nsFindWinIdx_eq : ∀ (gs : List Guide) (r : ℚ),
    nsFindWinIdx r gs = findWinIdx r gs := by
  intro gs
  induction gs with
  | nil => intro r; rfl
  | cons g gs ih =>
    intro r
    rw [nsFindWinIdx, findWinIdx, ih]

theorem nsSelectedIndex_eq (r : ℚ) (gs : List Guide) :
    nsSelectedIndex r gs = selectedIndex r gs := by
  rw [nsSelectedIndex, selectedIndex, nsFindWinIdx_eq]

theorem nsSelectionLoop_eq (rs : ℕ → ℚ) :
    ∀ (n i : ℕ) (pool : List Guide),
      nsSelectionLoop rs i n pool = selectionLoop rs i n pool := by
  intro n
  induction n with
  | zero => intro i pool; rfl
  | succ n ih =>
    intro i pool
    cases pool with
    | nil => rfl
    | cons g gs =>
      rw [nsSelectionLoop, selectionLoop, nsSelectedIndex_eq, nsTotalWeight_eq, ih]

/-- Frame property of the heap loop: a reference other than the working
array's is never written. -/
theorem wrsHeapLoop_frame (rs : ℕ → ℚ) (availRef : ℕ) :
    ∀ (n i : ℕ) (h : ℕ → List Guide) (ref : ℕ), ref ≠ availRef →
      (wrsHeapLoop rs availRef i n h).1 ref = h ref := by
  intro n
  induction n with
  | zero => intro i h ref _; rfl
  | succ n ih =>
    intro i h ref hne
    rw [wrsHeapLoop]
    cases hpool : h availRef with
    | nil => rfl
    | cons g gs =>
      simp only
      rw [ih (i + 1) _ ref hne]
      rw [Function.update_noteq hne]

/-- The heap loop computes the same winner list as the pure loop run on the
array stored at the working reference. -/
theorem wrsHeapLoop_winners (rs : ℕ → ℚ) (availRef : ℕ) :
    ∀ (n i : ℕ) (h : ℕ → List Guide),
      (wrsHeapLoop rs availRef i n h).2
        = selectionLoop rs i n (h availRef) := by
  intro n
  induction n with
  | zero => intro i h; rfl
  | succ n ih =>
    intro i h
    rw [wrsHeapLoop]
    cases hpool : h availRef with
    | nil => rw [selectionLoop]
    | cons g gs =>
      simp only
      rw [ih (i + 1)]
      rw [Function.update_same]
      rw [selectionLoop]

theorem totalWeight_of_all_zero :
    ∀ (l : List Guide), (∀ x ∈ l, x.totalTickets = 0) → totalWeight l = 0 := by
  intro l
  induction l with
  | nil => intro _; rfl
  | cons g gs ih =>
    intro hz
    rw [totalWeight_cons, hz g (by simp), ih (fun x hx => hz x (by simp [hx]))]
    ring

/-! Claim theorems. -/

/-- Claim C1: for every candidate list and every non-negative count, the winner
list returned by `weightedRandomSelection` has length exactly
`min count guides.length`; in particular a count exceeding the pool size
yields pool-size winners, and an empty input or a count of `0` yields an
empty list, with no error in any of these cases. -/
theorem claim1_winner_list_length (rs : ℕ → ℚ) (guides : List Guide)
    (count : ℕ) :
    (weightedRandomSelection rs guides count).length = min count guides.length :=
  selectionLoop_length rs count 0 guides

/-- Claim C2: for every candidate list, count and sequence of draws, the
winner list consists of actual candidates (`ws.map some`), drawn from the
input with multiplicities bounded by the input (`Subperm`), hence each
candidate of a duplicate-free input appears at most once. -/
theorem claim2_winners_distinct_from_pool (rs : ℕ → ℚ) (guides : List Guide)
    (count : ℕ) :
    ∃ ws : List Guide,
      weightedRandomSelection rs guides count = ws.map some ∧
      ws.Subperm guides ∧ (guides.Nodup → ws.Nodup) := by
  obtain ⟨ws, h1, h2⟩ := selectionLoop_subperm rs count 0 guides
  refine ⟨ws, h1, h2, fun hd => ?_⟩
  obtain ⟨l, hperm, hsl⟩ := h2
  exact hperm.nodup_iff.mp (hsl.nodup hd)

theorem claim2_witness :
    ∃ ws : List Guide,
      weightedRandomSelection (fun _ => 1/2) [⟨0, 1⟩, ⟨1, 1⟩, ⟨2, 2⟩] 2
        = ws.map some ∧
      ws.Subperm [⟨0, 1⟩, ⟨1, 1⟩, ⟨2, 2⟩] ∧
      (([⟨0, 1⟩, ⟨1, 1⟩, ⟨2, 2⟩] : List Guide).Nodup → ws.Nodup) :=
  claim2_winners_distinct_from_pool (fun _ => 1/2) [⟨0, 1⟩, ⟨1, 1⟩, ⟨2, 2⟩] 2

/-- Claim C3 is false as stated: at a draw equal to a partition boundary the
scan and the partition formulation disagree.  Pool `[A(1), B(1)]`, draw
`r = 1 ∈ [0, 2)`, all weights non-negative: `r` lies in sub-interval `1`
(`[1, 2)`), but the scan breaks at index `0` (the running value becomes `0`
there). -/
theorem claim3_counterexample :
    (∀ g ∈ ([⟨0, 1⟩, ⟨1, 1⟩] : List Guide), 0 ≤ g.totalTickets) ∧
    (0 : ℚ) ≤ 1 ∧ (1 : ℚ) < totalWeight [⟨0, 1⟩, ⟨1, 1⟩] ∧
    inSlot [⟨0, 1⟩, ⟨1, 1⟩] 1 1 ∧
    selectedIndex 1 [⟨0, 1⟩, ⟨1, 1⟩] ≠ 1 := by
  refine ⟨?_, by norm_num, ?_, ?_, ?_⟩
  · intro g hg
    simp only [List.mem_cons, List.not_mem_nil, or_false] at hg
    rcases hg with rfl | rfl <;> norm_num
  · norm_num [totalWeight_cons, totalWeight_nil]
  · constructor <;>
      norm_num [cumWeight, totalWeight_cons, totalWeight_nil, List.take_succ_cons]
  · norm_num [selectedIndex, findWinIdx]

/-- Claim C3 (amended): for every non-empty pool of non-negative weights and
every draw `r ∈ [0, totalWeight)` that is **not equal to a partition
boundary** (a cumulative weight), the scan selects exactly the index of the
sub-interval containing `r`; at boundary draws (a measure-zero set) the scan
breaks one slot earlier, which leaves each candidate's selecting set an
interval of length equal to its weight. -/
theorem claim3_scan_eq_partition (pool : List Guide) (r : ℚ) (i : ℕ)
    (hw : ∀ g ∈ pool, 0 ≤ g.totalTickets) (h0 : 0 ≤ r)
    (h1 : r < totalWeight pool)
    (hb : ∀ k ≤ pool.length, r ≠ cumWeight pool k) :
    inSlot pool i r ↔ selectedIndex r pool = i := by
  have hfwd : ∀ m, inSlot pool m r → selectedIndex r pool = m := by
    intro m hm
    have hmlt : m < pool.length := by
      by_contra hge
      push_neg at hge
      have he : cumWeight pool m = totalWeight pool := cumWeight_ge_length pool hge
      have h2 := hm.1
      rw [he] at h2
      linarith
    have hne : r ≠ cumWeight pool m := hb m (le_of_lt hmlt)
    have hlt : cumWeight pool m < r := lt_of_le_of_ne hm.1 (Ne.symm hne)
    rw [selectedIndex, scan_of_slot pool r m hw hlt hm.2]
    rfl
  constructor
  · exact hfwd i
  · intro hsel
    obtain ⟨i0, hi0⟩ := slot_exists pool r hw h0 h1
    have : i = i0 := hsel.symm.trans (hfwd i0 hi0)
    rw [this]
    exact hi0

theorem claim3_witness :
    inSlot [⟨0, 1⟩, ⟨1, 2⟩] 1 (3/2) ↔
      selectedIndex (3/2) [⟨0, 1⟩, ⟨1, 2⟩] = 1 := by
  refine claim3_scan_eq_partition [⟨0, 1⟩, ⟨1, 2⟩] (3/2) 1 ?_ (by norm_num) ?_ ?_
  · intro g hg
    simp only [List.mem_cons, List.not_mem_nil, or_false] at hg
    rcases hg with rfl | rfl <;> norm_num
  · norm_num [totalWeight_cons, totalWeight_nil]
  · intro k hk
    have hk2 : k ≤ 2 := by simpa using hk
    interval_cases k <;>
      norm_num [cumWeight, totalWeight_cons, totalWeight_nil, List.take_succ_cons]

/-- Claim C4 is false as stated: a draw of `r = 0` (which `Math.random()` can
produce) lands on a zero-weight first candidate even though a positive-weight
candidate remains.  Pool `[A(0), B(1)]` has total weight `1 > 0` and `r = 0`
lies in `[0, 1)`, yet the scan selects `A`, whose weight is `0`. -/
theorem claim4_counterexample :
    (∀ g ∈ ([⟨0, 0⟩, ⟨1, 1⟩] : List Guide), 0 ≤ g.totalTickets) ∧
    (0 : ℚ) ≤ 0 ∧ (0 : ℚ) < totalWeight [⟨0, 0⟩, ⟨1, 1⟩] ∧
    ([⟨0, 0⟩, ⟨1, 1⟩] : List Guide)[selectedIndex 0 [⟨0, 0⟩, ⟨1, 1⟩]]?
      = some ⟨0, 0⟩ ∧
    (⟨0, 0⟩ : Guide).totalTickets = 0 := by
  refine ⟨?_, by norm_num, ?_, ?_, rfl⟩
  · intro g hg
    simp only [List.mem_cons, List.not_mem_nil, or_false] at hg
    rcases hg with rfl | rfl <;> norm_num
  · norm_num [totalWeight_cons, totalWeight_nil]
  · norm_num [selectedIndex, findWinIdx]

/-- Claim C4 (amended): in a round whose pool still holds positive weight, any
**strictly positive** draw `r ∈ (0, totalWeight)` selects a candidate of
strictly positive weight; only the single boundary draw `r = 0` can hand the
round to a leading zero-weight candidate. -/
theorem claim4_pos_draw_selects_pos_weight (pool : List Guide) (r : ℚ)
    (_hw : ∀ g ∈ pool, 0 ≤ g.totalTickets) (h0 : 0 < r)
    (h1 : r < totalWeight pool) :
    ∃ g, pool[selectedIndex r pool]? = some g ∧ 0 < g.totalTickets :=
  pos_weight_selected pool r h0 h1

theorem claim4_witness :
    ∃ g, ([⟨0, 0⟩, ⟨1, 2⟩] : List Guide)[selectedIndex 1 [⟨0, 0⟩, ⟨1, 2⟩]]?
        = some g ∧ 0 < g.totalTickets := by
  refine claim4_pos_draw_selects_pos_weight [⟨0, 0⟩, ⟨1, 2⟩] 1 ?_ (by norm_num) ?_
  · intro g hg
    simp only [List.mem_cons, List.not_mem_nil, or_false] at hg
    rcases hg with rfl | rfl <;> norm_num
  · norm_num [totalWeight_cons, totalWeight_nil]

/-- Claim C5: on a pool all of whose weights are `0`, every round's draw is
`rs i * 0 = 0`, the scan breaks at once, index `0` is selected, and
`select(pool, 1)` returns exactly the first candidate — whatever the random
sequence does — with no error. -/
theorem claim5_all_zero_pool_first_wins (rs : ℕ → ℚ) (g : Guide)
    (gs : List Guide) (hz : ∀ x ∈ g :: gs, x.totalTickets = 0) :
    selectedIndex (rs 0 * totalWeight (g :: gs)) (g :: gs) = 0 ∧
    weightedRandomSelection rs (g :: gs) 1 = [some g] := by
  have hW : totalWeight (g :: gs) = 0 := totalWeight_of_all_zero _ hz
  have hg0 : g.totalTickets = 0 := hz g (by simp)
  have hidx : selectedIndex (rs 0 * totalWeight (g :: gs)) (g :: gs) = 0 := by
    rw [hW, mul_zero, selectedIndex, findWinIdx, hg0]
    norm_num
  refine ⟨hidx, ?_⟩
  have hstep : weightedRandomSelection rs (g :: gs) 1
      = (g :: gs)[selectedIndex (rs 0 * totalWeight (g :: gs)) (g :: gs)]?
        :: selectionLoop rs 1 0
          ((g :: gs).eraseIdx
            (selectedIndex (rs 0 * totalWeight (g :: gs)) (g :: gs))) := rfl
  rw [hstep, hidx]
  simp [selectionLoop]

theorem claim5_witness :
    selectedIndex ((fun _ => (1:ℚ)/3) 0 * totalWeight [⟨0, 0⟩, ⟨1, 0⟩])
        [⟨0, 0⟩, ⟨1, 0⟩] = 0 ∧
    weightedRandomSelection (fun _ => (1:ℚ)/3) [⟨0, 0⟩, ⟨1, 0⟩] 1
      = [some ⟨0, 0⟩] := by
  refine claim5_all_zero_pool_first_wins (fun _ => (1:ℚ)/3) ⟨0, 0⟩ [⟨1, 0⟩] ?_
  intro x hx
  simp only [List.mem_cons, List.not_mem_nil, or_false] at hx
  rcases hx with rfl | rfl <;> rfl

/-- Claim C6: in the heap model the caller's array at `inRef` is untouched by
a run of `weightedRandomSelection` — the sole written reference is the fresh
copy `availRef` made by `[...guides]` — and the winners are exactly those of
the pure function on the input list. -/
theorem claim6_input_not_mutated (rs : ℕ → ℚ) (h : ℕ → List Guide)
    (inRef availRef : ℕ) (count : ℕ) (hne : inRef ≠ availRef) :
    (wrsHeap rs h inRef availRef count).1 inRef = h inRef ∧
    (wrsHeap rs h inRef availRef count).2
      = weightedRandomSelection rs (h inRef) count := by
  constructor
  · rw [wrsHeap, wrsHeapLoop_frame rs availRef count 0 _ inRef hne,
      Function.update_noteq hne]
  · rw [wrsHeap, wrsHeapLoop_winners, Function.update_same,
      weightedRandomSelection]

theorem claim6_witness :
    (wrsHeap (fun _ => (1:ℚ)/2) (fun _ => [⟨0, 1⟩]) 0 1 1).1 0
        = (fun _ => ([⟨0, 1⟩] : List Guide)) 0 ∧
    (wrsHeap (fun _ => (1:ℚ)/2) (fun _ => [⟨0, 1⟩]) 0 1 1).2
      = weightedRandomSelection (fun _ => (1:ℚ)/2)
          ((fun _ => ([⟨0, 1⟩] : List Guide)) 0) 1 :=
  claim6_input_not_mutated (fun _ => (1:ℚ)/2) (fun _ => [⟨0, 1⟩]) 0 1 1
    (by omega)

/-- Claim C7: a round on a non-empty pool removes exactly one candidate, the
survivors keep their relative order (the new pool is a sublist of the old),
and the total weight strictly decreases or the pool shrinks by one. -/
theorem claim7_round_shrinks_pool (pool : List Guide) (r : ℚ)
    (hne : pool ≠ []) :
    (pool.eraseIdx (selectedIndex r pool)).length = pool.length - 1 ∧
    (pool.eraseIdx (selectedIndex r pool)).Sublist pool ∧
    (totalWeight (pool.eraseIdx (selectedIndex r pool)) < totalWeight pool ∨
      (pool.eraseIdx (selectedIndex r pool)).length = pool.length - 1) := by
  have hjlt := selectedIndex_lt_length hne r
  have hlen : (pool.eraseIdx (selectedIndex r pool)).length
      = pool.length - 1 := by
    rw [List.length_eraseIdx, if_pos hjlt]
  exact ⟨hlen, List.eraseIdx_sublist pool _, Or.inr hlen⟩

theorem claim7_witness :
    (([⟨0, 1⟩] : List Guide).eraseIdx (selectedIndex (1/2) [⟨0, 1⟩])).length
        = ([⟨0, 1⟩] : List Guide).length - 1 ∧
    (([⟨0, 1⟩] : List Guide).eraseIdx
        (selectedIndex (1/2) [⟨0, 1⟩])).Sublist [⟨0, 1⟩] ∧
    (totalWeight (([⟨0, 1⟩] : List Guide).eraseIdx
          (selectedIndex (1/2) [⟨0, 1⟩])) < totalWeight [⟨0, 1⟩] ∨
      (([⟨0, 1⟩] : List Guide).eraseIdx
          (selectedIndex (1/2) [⟨0, 1⟩])).length
        = ([⟨0, 1⟩] : List Guide).length - 1) :=
  claim7_round_shrinks_pool [⟨0, 1⟩] (1/2) (by simp)

/-- Claim C8: the selection loop embedded inline in `NameScrolling.tsx`
computes exactly the same function as `weightedRandomSelection` of
`lottery.ts`, for every input list, count and sequence of draws. -/
theorem claim8_inline_equals_lottery (rs : ℕ → ℚ) (guides : List Guide)
    (count : ℕ) :
    nsSelectWinners rs guides count = weightedRandomSelection rs guides count :=
  nsSelectionLoop_eq rs count 0 guides

/-- Claim C9: `weightedRandomSelection` is deterministic once the random
source is fixed — two runs on the same list and count whose random sequences
agree on every round that can execute produce identical winner lists. -/
theorem claim9_deterministic_given_draws (rs1 rs2 : ℕ → ℚ)
    (guides : List Guide) (count : ℕ)
    (hagree : ∀ k < count, rs1 k = rs2 k) :
    weightedRandomSelection rs1 guides count
      = weightedRandomSelection rs2 guides count :=
  selectionLoop_congr rs1 rs2 count 0 guides
    (fun k _ hk2 => hagree k (by omega))

theorem claim9_witness :
    weightedRandomSelection (fun _ => (1:ℚ)/2) [⟨0, 1⟩] 1
      = weightedRandomSelection (fun k => if k = 0 then (1:ℚ)/2 else 0)
          [⟨0, 1⟩] 1 := by
  refine claim9_deterministic_given_draws _ _ [⟨0, 1⟩] 1 ?_
  intro k hk
  have : k = 0 := by omega
  subst this
  norm_num

/-- Claim C10: every round on a non-empty pool yields a well-defined winner:
for any draw and non-negative weights, the selected index is within the
bounds of the pool (it defaults to `0` when the scan never breaks), so the
removal returns an actual candidate and never an undefined value. -/
theorem claim10_selected_index_in_bounds (pool : List Guide) (r : ℚ)
    (hne : pool ≠ []) (_hw : ∀ g ∈ pool, 0 ≤ g.totalTickets) :
    selectedIndex r pool < pool.length ∧
    ∃ g, pool[selectedIndex r pool]? = some g := by
  have hjlt := selectedIndex_lt_length hne r
  exact ⟨hjlt, _, List.getElem?_eq_getElem hjlt⟩

theorem claim10_witness :
    selectedIndex 5 [⟨0, 1⟩] < ([⟨0, 1⟩] : List Guide).length ∧
    ∃ g, ([⟨0, 1⟩] : List Guide)[selectedIndex 5 [⟨0, 1⟩]]? = some g := by
  refine claim10_selected_index_in_bounds [⟨0, 1⟩] 5 (by simp) ?_
  intro g hg
  simp only [List.mem_cons, List.not_mem_nil, or_false] at hg
  subst hg
  norm_num
